import Mathlib

/-!
Verification of the Jacobi eigenvalue decomposition core (`eigs.js`).

Shallow embedding conventions:
* JS 2D arrays become `List (List α)`; reads `x[i][j]` become `ent d M i j`
  (with an explicit default `d` for the out-of-range case, which never
  occurs under the well-formedness hypotheses of the theorems), and writes
  become `setEnt`.
* Native JS numbers are idealized as exact rationals `ℚ`; BigNumber
  (arbitrary-precision) and Fraction (rational) values are idealized as
  exact rationals carrying a family tag (`Val`).  Rounding behaviour of
  the numeric families is outside the scope of the claims, which are
  structural/algorithmic.
* The injected arithmetic provider operations (`abs`, `subtract`,
  `multiplyScalar`, `addScalar`, `add`, `multiply`, `inv`, `equal`,
  `bignumber`, `cos`, `sin`, `atan`) are repository code not present under
  the reviewed sources.  Modelled from the spec: §2 "Arithmetic Provider"
  and §6 list them as exact family arithmetic with promotion to the
  arbitrary-precision family on mixed operands, and family-appropriate
  comparison/equality; the trigonometric primitives are kept abstract as
  parameters (`TransFns`) since no claim depends on their values.
-/

namespace Eigs

/-- A JS 2D array of elements of type `α` (list of rows). -/
abbrev Mat (α : Type) := List (List α)

/-- Read `M[i][j]`, with default `d` when out of range. -/
def ent {α : Type} (d : α) (M : Mat α) (i j : Nat) : α :=
  (M.getD i []).getD j d

/-- Write `M[i][j] = v` (no-op when out of range, like `List.set`). -/
def setEnt {α : Type} (M : Mat α) (i j : Nat) (v : α) : Mat α :=
  M.set i ((M.getD i []).set j v)

/-- Square `n × n` well-formedness of a row list. -/
def SqMat {α : Type} (M : Mat α) (n : Nat) : Prop :=
  M.length = n ∧ ∀ r ∈ M, r.length = n

/-- The JS values flowing through the engine: a native floating value, an
arbitrary-precision (BigNumber) value, a rational (Fraction) value, or a
value of an unsupported type.  Each numeric family is idealized exactly. -/
inductive Val : Type
  | num (q : ℚ)
  | big (q : ℚ)
  | frac (q : ℚ)
  | other
deriving DecidableEq, Repr

/-- Numeric content of a value (JS primitive coercion, exact idealization);
`other` coerces to 0 (its coercion is never reached by the engine). -/
def toN : Val → ℚ
  | Val.num q => q
  | Val.big q => q
  | Val.frac q => q
  | Val.other => 0

/-- Is the value of the arbitrary-precision family? -/
def isBig : Val → Bool
  | Val.big _ => true
  | _ => false

/-- Modelled from the spec: a binary operation of the Arithmetic Provider
(§2), computing exactly and promoting to the arbitrary-precision family
when either operand belongs to it. -/
def jop (f : ℚ → ℚ → ℚ) (a b : Val) : Val :=
  if isBig a || isBig b then Val.big (f (toN a) (toN b)) else Val.num (f (toN a) (toN b))

/-- `addScalar` / `add` of the provider. -/
def addV (a b : Val) : Val := jop (· + ·) a b

/-- `subtract` of the provider. -/
def subV (a b : Val) : Val := jop (· - ·) a b

/-- `multiplyScalar` / `multiply` of the provider. -/
def mulV (a b : Val) : Val := jop (· * ·) a b

/-- `divide` of the provider (used only in the spec-side formula of §4.3). -/
def divV (a b : Val) : Val := jop (· / ·) a b

/-- `inv` of the provider: family-preserving exact inverse. -/
def invV : Val → Val
  | Val.num q => Val.num q⁻¹
  | Val.big q => Val.big q⁻¹
  | Val.frac q => Val.frac q⁻¹
  | Val.other => Val.other

/-- `abs` of the provider: family-preserving absolute value. -/
def absV : Val → Val
  | Val.num q => Val.num |q|
  | Val.big q => Val.big |q|
  | Val.frac q => Val.frac |q|
  | Val.other => Val.other

/-- `bignumber` of the provider: conversion into the arbitrary-precision
family. -/
def bignumberV (a : Val) : Val := Val.big (toN a)

/-- Modelled from the spec: family-appropriate equality of the provider
(§4.1, §6), exact on the numeric content. -/
def equalV (a b : Val) : Bool := decide (toN a = toN b)

/-- The trigonometric primitives of the two engine families (`Math.cos`,
`Math.sin`, `Math.atan` for the native path; the provider's `cos`, `sin`,
`atan` for the arbitrary-precision path) together with the constant
`Math.PI`.  Modelled from the spec (§2): kept abstract, since every claim
is independent of their values. -/
structure TransFns : Type where
  cosN : ℚ → ℚ
  sinN : ℚ → ℚ
  atanN : ℚ → ℚ
  cosB : ℚ → ℚ
  sinB : ℚ → ℚ
  atanB : ℚ → ℚ
  piQ : ℚ

/-- The provider's `cos`, dispatching on the family. -/
def cosV (F : TransFns) : Val → Val
  | Val.num q => Val.num (F.cosN q)
  | Val.big q => Val.big (F.cosB q)
  | Val.frac q => Val.frac (F.cosN q)
  | Val.other => Val.other

/-- The provider's `sin`, dispatching on the family. -/
def sinV (F : TransFns) : Val → Val
  | Val.num q => Val.num (F.sinN q)
  | Val.big q => Val.big (F.sinB q)
  | Val.frac q => Val.frac (F.sinN q)
  | Val.other => Val.other

/-- The provider's `atan`, dispatching on the family. -/
def atanV (F : TransFns) : Val → Val
  | Val.num q => Val.num (F.atanN q)
  | Val.big q => Val.big (F.atanB q)
  | Val.frac q => Val.frac (F.atanN q)
  | Val.other => Val.other

/-- A concrete instantiation of the abstract trigonometric primitives,
used to evaluate the development on concrete inputs. -/
def trigTest : TransFns :=
  { cosN := fun _ => 1, sinN := fun _ => 0, atanN := fun q => q
    cosB := fun _ => 1, sinB := fun _ => 0, atanB := fun q => q, piQ := 3 }

theorem getD_set_self {α : Type} (l : List α) (i : Nat) (v : α) (d : α)
    (h : i < l.length) : (l.set i v).getD i d = v := by
  rw [List.getD_eq_getElem?_getD, List.getElem?_set_self (by simpa using h)]
  rfl

theorem getD_set_ne {α : Type} (l : List α) (i j : Nat) (v : α) (d : α)
    (h : i ≠ j) : (l.set i v).getD j d = l.getD j d := by
  rw [List.getD_eq_getElem?_getD, List.getElem?_set_ne h, ← List.getD_eq_getElem?_getD]

theorem getD_mem_of_lt {α : Type} (l : List α) (i : Nat) (d : α)
    (h : i < l.length) : l.getD i d ∈ l := by
  rw [List.getD_eq_getElem?_getD, List.getElem?_eq_getElem h]
  exact List.getElem_mem h

theorem ent_setEnt {α : Type} (d : α) (M : Mat α) (a b p q : Nat) (v : α)
    (ha : a < M.length) (hb : b < (M.getD a []).length) :
    ent d (setEnt M a b v) p q = if p = a ∧ q = b then v else ent d M p q := by
  unfold ent setEnt
  by_cases hpa : p = a
  · subst hpa
    rw [getD_set_self _ _ _ _ ha]
    by_cases hqb : q = b
    · subst hqb
      simp only [and_self, if_true]
      exact getD_set_self _ _ _ _ hb
    · simp only [hqb, and_false, if_false]
      exact getD_set_ne _ _ _ _ _ (fun h => hqb h.symm)
  · simp only [hpa, false_and, if_false]
    rw [getD_set_ne _ _ _ _ _ (fun h => hpa h.symm)]

theorem length_setEnt {α : Type} (M : Mat α) (a b : Nat) (v : α) :
    (setEnt M a b v).length = M.length := by
  simp [setEnt]

theorem sqMat_setEnt {α : Type} {M : Mat α} {n : Nat} (h : SqMat M n)
    (a b : Nat) (v : α) : SqMat (setEnt M a b v) n := by
  obtain ⟨h1, h2⟩ := h
  by_cases ha : a < M.length
  · constructor
    · simp [setEnt, h1]
    · intro r hr
      rcases List.mem_or_eq_of_mem_set hr with hmem | heq
      · exact h2 r hmem
      · subst heq
        rw [List.length_set]
        exact h2 _ (getD_mem_of_lt _ _ _ ha)
  · rw [setEnt, List.set_eq_of_length_le (by omega)]
    exact ⟨h1, h2⟩

theorem rowlen_of_sqMat {α : Type} {M : Mat α} {n : Nat} (h : SqMat M n)
    {a : Nat} (ha : a < n) : (M.getD a []).length = n := by
  obtain ⟨h1, h2⟩ := h
  exact h2 _ (getD_mem_of_lt _ _ _ (by omega))

theorem getD_map {α β : Type} (f : α → β) (l : List α) (i : Nat) (d : α) :
    (l.map f).getD i (f d) = f (l.getD i d) := by
  rw [List.getD_eq_getElem?_getD, List.getElem?_map, List.getD_eq_getElem?_getD]
  cases l[i]? <;> rfl

/-- The strict upper triangle `(i, j)`, `i < j`, in row-major scan order:
the translation of the nested loops `for i in 0..N, for j in i+1..N`. -/
def upperPairs (N : Nat) : List (Nat × Nat) :=
  (List.range N).flatMap fun i => (List.range' (i + 1) (N - (i + 1))).map fun j => (i, j)

/-- `getAij`: scan the strict upper triangle for the entry of maximal
absolute value; returns the default pair `(0, 1)` with magnitude `0` when
no entry beats the initial `maxMij = 0.0`. -/
def getAij (M : Mat ℚ) : (Nat × Nat) × ℚ :=
  (upperPairs M.length).foldl
    (fun acc p => if |acc.2| < |ent 0 M p.1 p.2| then (p, |ent 0 M p.1 p.2|) else acc)
    ((0, 1), 0)

/-- `getAijBig`: the arbitrary-precision variant of `getAij`; the provider's
`abs` is family-preserving and the comparison coerces to the native numeric
content (JS relational comparison on the wrapped values). -/
def getAijBig (M : Mat Val) : (Nat × Nat) × Val :=
  (upperPairs M.length).foldl
    (fun acc p =>
      if toN (absV acc.2) < toN (absV (ent (Val.num 0) M p.1 p.2))
      then (p, absV (ent (Val.num 0) M p.1 p.2)) else acc)
    ((0, 1), Val.num 0)

/-- Row-major (lexicographic) order on index pairs. -/
def lexLt (a b : Nat × Nat) : Prop :=
  a.1 < b.1 ∨ (a.1 = b.1 ∧ a.2 < b.2)

theorem toN_absV (v : Val) : toN (absV v) = |toN v| := by
  cases v <;> simp [absV, toN]

theorem mem_upperPairs {N p q : Nat} :
    (p, q) ∈ upperPairs N ↔ p < q ∧ q < N := by
  simp only [upperPairs, List.mem_flatMap, List.mem_map, List.mem_range,
    List.mem_range'_1, Prod.mk.injEq]
  constructor
  · rintro ⟨i, hi, j, hj, rfl, rfl⟩
    omega
  · rintro ⟨hpq, hqN⟩
    exact ⟨p, by omega, q, by omega, rfl, rfl⟩

theorem pairwise_flatMap_of {A B : Type} (R : B → B → Prop) (l : List A) (f : A → List B)
    (h1 : ∀ a ∈ l, (f a).Pairwise R)
    (h2 : l.Pairwise (fun a b => ∀ x ∈ f a, ∀ y ∈ f b, R x y)) :
    (l.flatMap f).Pairwise R := by
  induction l with
  | nil => simp
  | cons a t ih =>
    rw [List.flatMap_cons, List.pairwise_append]
    rw [List.pairwise_cons] at h2
    refine ⟨h1 a (by simp), ih (fun b hb => h1 b (by simp [hb])) h2.2, ?_⟩
    intro x hx y hy
    rw [List.mem_flatMap] at hy
    obtain ⟨b, hb, hyb⟩ := hy
    exact h2.1 b hb x hx y hyb

theorem pairwise_upperPairs (N : Nat) : (upperPairs N).Pairwise lexLt := by
  refine pairwise_flatMap_of _ _ _ (fun i _ => ?_) ?_
  · rw [List.pairwise_map]
    exact (List.pairwise_lt_range' _ _).imp fun h => Or.inr ⟨rfl, h⟩
  · refine List.pairwise_lt_range N |>.imp ?_
    rintro a b hab x hx y hy
    rw [List.mem_map] at hx hy
    obtain ⟨j1, _, rfl⟩ := hx
    obtain ⟨j2, _, rfl⟩ := hy
    exact Or.inl hab

/-- Fold invariant for the pivot scan: either no entry beat the
accumulator, or the result names the earliest entry of maximal magnitude. -/
theorem pivotFoldInv (M : Mat ℚ) :
    ∀ (ps : List (Nat × Nat)) (acc : (Nat × Nat) × ℚ), 0 ≤ acc.2 →
    (ps.foldl (fun acc p => if |acc.2| < |ent 0 M p.1 p.2| then (p, |ent 0 M p.1 p.2|) else acc) acc
        = acc ∧ ∀ p ∈ ps, |ent 0 M p.1 p.2| ≤ acc.2) ∨
    (∃ ps₁ p ps₂, ps = ps₁ ++ p :: ps₂ ∧
      ps.foldl (fun acc p => if |acc.2| < |ent 0 M p.1 p.2| then (p, |ent 0 M p.1 p.2|) else acc) acc
        = (p, |ent 0 M p.1 p.2|) ∧
      acc.2 < |ent 0 M p.1 p.2| ∧
      (∀ q ∈ ps₁, |ent 0 M q.1 q.2| < |ent 0 M p.1 p.2|) ∧
      (∀ q ∈ ps₂, |ent 0 M q.1 q.2| ≤ |ent 0 M p.1 p.2|)) := by
  intro ps
  induction ps with
  | nil => intro acc _; exact Or.inl ⟨rfl, by simp⟩
  | cons p₀ rest ih =>
    intro acc hacc
    rw [List.foldl_cons]
    by_cases hcond : |acc.2| < |ent 0 M p₀.1 p₀.2|
    · rw [if_pos hcond]
      rw [abs_of_nonneg hacc] at hcond
      rcases ih (p₀, |ent 0 M p₀.1 p₀.2|) (abs_nonneg _) with ⟨heq, hall⟩ |
        ⟨r₁, pr, r₂, hsplit, heq, hlt, hbefore, hafter⟩
      · exact Or.inr ⟨[], p₀, rest, by simp, heq, hcond, by simp, fun q hq => hall q hq⟩
      · simp only at hlt
        refine Or.inr ⟨p₀ :: r₁, pr, r₂, by simp [hsplit], heq,
          lt_trans hcond hlt, fun q hq => ?_, hafter⟩
        rcases List.mem_cons.mp hq with rfl | hq'
        · exact hlt
        · exact hbefore q hq'
    · rw [if_neg hcond]
      rw [abs_of_nonneg hacc] at hcond
      rcases ih acc hacc with ⟨heq, hall⟩ | ⟨r₁, pr, r₂, hsplit, heq, hlt, hbefore, hafter⟩
      · refine Or.inl ⟨heq, fun q hq => ?_⟩
        rcases List.mem_cons.mp hq with rfl | hq'
        · exact not_lt.mp hcond
        · exact hall q hq'
      · refine Or.inr ⟨p₀ :: r₁, pr, r₂, by simp [hsplit], heq, hlt, fun q hq => ?_, hafter⟩
        rcases List.mem_cons.mp hq with rfl | hq'
        · exact lt_of_le_of_lt (not_lt.mp hcond) hlt
        · exact hbefore q hq'

theorem getAij_nonneg (M : Mat ℚ) : 0 ≤ (getAij M).2 := by
  unfold getAij
  rcases pivotFoldInv M (upperPairs M.length) ((0, 1), 0) le_rfl with ⟨heq, _⟩ |
    ⟨_, pr, _, _, heq, _, _, _⟩ <;> rw [heq]
  exact abs_nonneg _

theorem getAij_le (M : Mat ℚ) {p q : Nat} (hpq : p < q) (hq : q < M.length) :
    |ent 0 M p q| ≤ (getAij M).2 := by
  unfold getAij
  have hmem : (p, q) ∈ upperPairs M.length := mem_upperPairs.mpr ⟨hpq, hq⟩
  rcases pivotFoldInv M (upperPairs M.length) ((0, 1), 0) le_rfl with ⟨heq, hall⟩ |
    ⟨ps₁, pr, ps₂, hsplit, heq, _, hbefore, hafter⟩
  · rw [heq]; exact hall (p, q) hmem
  · rw [heq]
    rw [hsplit] at hmem
    rcases List.mem_append.mp hmem with h1 | h2
    · exact le_of_lt (hbefore (p, q) h1)
    · rcases List.mem_cons.mp h2 with heq2 | h3
      · subst heq2; exact le_refl _
      · exact hafter (p, q) h3

theorem getAij_spec (M : Mat ℚ) (hN : 2 ≤ M.length) :
    (getAij M).1.1 < (getAij M).1.2 ∧ (getAij M).1.2 < M.length ∧
    (getAij M).2 = |ent 0 M (getAij M).1.1 (getAij M).1.2| ∧
    (∀ p q, p < q → q < M.length → lexLt (p, q) (getAij M).1 →
      |ent 0 M p q| < (getAij M).2) := by
  rcases pivotFoldInv M (upperPairs M.length) ((0, 1), 0) le_rfl with ⟨heq, hall⟩ |
    ⟨ps₁, pr, ps₂, hsplit, heq, _, hbefore, hafter⟩
  · have hga : getAij M = ((0, 1), 0) := heq
    have h01 : ((0 : Nat), (1 : Nat)) ∈ upperPairs M.length := mem_upperPairs.mpr ⟨by omega, by omega⟩
    have hz : |ent 0 M 0 1| = 0 := le_antisymm (hall (0, 1) h01) (abs_nonneg _)
    rw [hga]
    refine ⟨by decide, by show (1 : Nat) < M.length; omega, hz.symm, ?_⟩
    intro p q hpq hq hlex
    simp only [lexLt] at hlex
    omega
  · have hga : getAij M = (pr, |ent 0 M pr.1 pr.2|) := heq
    have hmem : pr ∈ upperPairs M.length := by
      rw [hsplit]; exact List.mem_append_right _ (List.mem_cons_self _ _)
    have hpr : pr.1 < pr.2 ∧ pr.2 < M.length := mem_upperPairs.mp hmem
    have hpw := pairwise_upperPairs M.length
    rw [hsplit, List.pairwise_append] at hpw
    rw [hga]
    refine ⟨hpr.1, hpr.2, rfl, ?_⟩
    intro p q hpq hq hlex
    simp only [lexLt] at hlex
    have hmem2 : (p, q) ∈ upperPairs M.length := mem_upperPairs.mpr ⟨hpq, hq⟩
    rw [hsplit] at hmem2
    rcases List.mem_append.mp hmem2 with h1 | h2
    · exact hbefore (p, q) h1
    · rcases List.mem_cons.mp h2 with heq2 | h3
      · rw [← heq2] at hlex
        omega
      · have hlex2 := (List.pairwise_cons.mp hpw.2.1).1 (p, q) h3
        simp only [lexLt] at hlex2
        omega

theorem ent_toN (M : Mat Val) (p q : Nat) :
    ent 0 (M.map fun r => r.map toN) p q = toN (ent (Val.num 0) M p q) := by
  unfold ent
  have h1 : (M.map fun r => r.map toN).getD p [] = (M.getD p []).map toN := by
    simpa using getD_map (fun r : List Val => r.map toN) M p []
  rw [h1]
  simpa [toN] using getD_map toN (M.getD p []) q (Val.num 0)

theorem pivotFold_sim (M : Mat Val) (ps : List (Nat × Nat)) :
    ∀ (aB : (Nat × Nat) × Val) (aQ : (Nat × Nat) × ℚ), aB.1 = aQ.1 → toN aB.2 = aQ.2 →
    (ps.foldl (fun acc p =>
        if toN (absV acc.2) < toN (absV (ent (Val.num 0) M p.1 p.2))
        then (p, absV (ent (Val.num 0) M p.1 p.2)) else acc) aB).1
      = (ps.foldl (fun acc p =>
        if |acc.2| < |ent 0 (M.map fun r => r.map toN) p.1 p.2|
        then (p, |ent 0 (M.map fun r => r.map toN) p.1 p.2|) else acc) aQ).1 ∧
    toN (ps.foldl (fun acc p =>
        if toN (absV acc.2) < toN (absV (ent (Val.num 0) M p.1 p.2))
        then (p, absV (ent (Val.num 0) M p.1 p.2)) else acc) aB).2
      = (ps.foldl (fun acc p =>
        if |acc.2| < |ent 0 (M.map fun r => r.map toN) p.1 p.2|
        then (p, |ent 0 (M.map fun r => r.map toN) p.1 p.2|) else acc) aQ).2 := by
  induction ps with
  | nil => intro aB aQ h1 h2; exact ⟨h1, h2⟩
  | cons p rest ih =>
    intro aB aQ h1 h2
    rw [List.foldl_cons, List.foldl_cons]
    have hent := ent_toN M p.1 p.2
    have hcond : (|aQ.2| < |ent 0 (M.map fun r => r.map toN) p.1 p.2|) ↔
        (toN (absV aB.2) < toN (absV (ent (Val.num 0) M p.1 p.2))) := by
      rw [hent, toN_absV, toN_absV, h2]
    by_cases hc : toN (absV aB.2) < toN (absV (ent (Val.num 0) M p.1 p.2))
    · rw [if_pos hc, if_pos (hcond.mpr hc)]
      exact ih _ _ rfl (by rw [toN_absV, hent])
    · rw [if_neg hc, if_neg (fun h => hc (hcond.mp h))]
      exact ih aB aQ h1 h2

theorem getAijBig_sim (M : Mat Val) :
    (getAijBig M).1 = (getAij (M.map fun r => r.map toN)).1 ∧
    toN (getAijBig M).2 = (getAij (M.map fun r => r.map toN)).2 := by
  unfold getAij getAijBig
  rw [List.length_map]
  exact pivotFold_sim M (upperPairs M.length) ((0, 1), Val.num 0) ((0, 1), 0) rfl (by simp [toN])

/-- **C3.** For every N×N matrix with N ≥ 2, the pivot selector (`getAij`,
and the arbitrary-precision `getAijBig`) returns the index pair `(i, j)`
with `i < j` whose entry has the strictly greatest absolute value among
the strict-upper-triangle entries scanned in row-major order, together
with that magnitude; on ties the earliest pair in scan order wins (every
pair strictly earlier in scan order has strictly smaller magnitude). -/
theorem getAij_returns_max_offdiagonal :
    (∀ M : Mat ℚ, 2 ≤ M.length →
      (getAij M).1.1 < (getAij M).1.2 ∧ (getAij M).1.2 < M.length ∧
      (getAij M).2 = |ent 0 M (getAij M).1.1 (getAij M).1.2| ∧
      (∀ p q, p < q → q < M.length → |ent 0 M p q| ≤ (getAij M).2) ∧
      (∀ p q, p < q → q < M.length → lexLt (p, q) (getAij M).1 →
        |ent 0 M p q| < (getAij M).2)) ∧
    (∀ B : Mat Val, 2 ≤ B.length →
      (getAijBig B).1.1 < (getAijBig B).1.2 ∧ (getAijBig B).1.2 < B.length ∧
      toN (getAijBig B).2 = |toN (ent (Val.num 0) B (getAijBig B).1.1 (getAijBig B).1.2)| ∧
      (∀ p q, p < q → q < B.length → |toN (ent (Val.num 0) B p q)| ≤ toN (getAijBig B).2) ∧
      (∀ p q, p < q → q < B.length → lexLt (p, q) (getAijBig B).1 →
        |toN (ent (Val.num 0) B p q)| < toN (getAijBig B).2)) := by
  constructor
  · intro M hN
    obtain ⟨h1, h2, h3, h4⟩ := getAij_spec M hN
    exact ⟨h1, h2, h3, fun p q hpq hq => getAij_le M hpq hq, h4⟩
  · intro B hN
    obtain ⟨hsim1, hsim2⟩ := getAijBig_sim B
    have hlen : (B.map fun r => r.map toN).length = B.length := List.length_map _ _
    obtain ⟨h1, h2, h3, h4⟩ := getAij_spec (B.map fun r => r.map toN) (by omega)
    rw [hsim1, hsim2]
    refine ⟨h1, by omega, ?_, ?_, ?_⟩
    · rw [h3, ent_toN]
    · intro p q hpq hq
      rw [← ent_toN]
      exact getAij_le _ hpq (by omega)
    · intro p q hpq hq hlex
      rw [← ent_toN]
      exact h4 p q hpq (by omega) hlex

/-- Witness for C3 at a concrete 3×3 matrix with a magnitude tie between
`(0, 1)` and `(0, 2)`: the earliest pair `(0, 1)` is selected, in both the
native and the arbitrary-precision path. -/
theorem getAij_returns_max_offdiagonal_witness :
    (getAij [[0, 2, -2], [2, 0, 1], [-2, 1, 0]]).1.1 <
      (getAij [[0, 2, -2], [2, 0, 1], [-2, 1, 0]]).1.2 ∧
    getAij [[0, 2, -2], [2, 0, 1], [-2, 1, 0]] = ((0, 1), 2) ∧
    getAijBig [[Val.big 0, Val.big 2], [Val.big 2, Val.big 0]] = ((0, 1), Val.big 2) :=
  ⟨(getAij_returns_max_offdiagonal.1 [[0, 2, -2], [2, 0, 1], [-2, 1, 0]] (by decide)).1,
    by decide, by decide⟩

/-- `getTheta` (native path): rotation angle at the pivot.  `Math.PI` is
the abstract constant `F.piQ`; the literal `1E-14` is idealized exactly. -/
def getTheta (F : TransFns) (aii ajj aij : ℚ) : ℚ :=
  let denom := ajj - aii
  if |denom| ≤ 1 / 100000000000000 then F.piQ / 4
  else (1 / 2) * F.atanN (2 * aij / (ajj - aii))

/-- `getThetaBig` (arbitrary-precision path): the degeneracy test coerces
`abs(denom)` to its native numeric content (`toN`) and compares against the
native literal `1E-14`; the branch value `Math.PI / 4.0` is a native value. -/
def getThetaBig (F : TransFns) (aii ajj aij : Val) : Val :=
  let denom := subV ajj aii
  if toN (absV denom) ≤ 1 / 100000000000000 then Val.num (F.piQ / 4)
  else mulV (Val.num (1 / 2)) (atanV F (mulV (mulV (Val.num 2) aij) (invV denom)))

/-- Modelled from the spec (§4.3): θ is π/4 when the native-floating
absolute value of `ajj − aii` is ≤ 1e-14, and otherwise
`0.5 · atan(2·aij / (ajj − aii))` in the active family's arithmetic. -/
def getThetaSpec (F : TransFns) (aii ajj aij : ℚ) : ℚ :=
  if |ajj - aii| ≤ 1 / 100000000000000 then F.piQ / 4
  else (1 / 2) * F.atanN (2 * aij / (ajj - aii))

/-- Modelled from the spec (§4.3), arbitrary-precision family: the ≤1e-14
test itself is performed on the native numeric content, the formula
`0.5 · atan(2·aij / (ajj − aii))` in the family's arithmetic (division
written as division). -/
def getThetaBigSpec (F : TransFns) (aii ajj aij : Val) : Val :=
  if toN (absV (subV ajj aii)) ≤ 1 / 100000000000000 then Val.num (F.piQ / 4)
  else mulV (Val.num (1 / 2)) (atanV F (divV (mulV (Val.num 2) aij) (subV ajj aii)))

theorem mulV_invV (a b : Val) : mulV a (invV b) = divV a b := by
  cases a <;> cases b <;> simp [mulV, divV, invV, jop, isBig, toN, div_eq_mul_inv]

/-- **C4.** In both paths the rotation angle is π/4 when the native
absolute value of `ajj − aii` is ≤ 1e-14 (the test is native even for
arbitrary-precision inputs), and otherwise
`0.5 · atan(2·aij / (ajj − aii))` in the active family's arithmetic:
both angle routines coincide with the spec formulas, and the tested
quantity in the arbitrary-precision path is the native value of the
difference. -/
theorem getTheta_matches_spec :
    (∀ F aii ajj aij, getTheta F aii ajj aij = getThetaSpec F aii ajj aij) ∧
    (∀ F aii ajj aij, getThetaBig F aii ajj aij = getThetaBigSpec F aii ajj aij) ∧
    (∀ a b : Val, toN (absV (subV b a)) = |toN b - toN a|) := by
  refine ⟨fun F aii ajj aij => rfl, fun F aii ajj aij => ?_, fun a b => ?_⟩
  · show (if toN (absV (subV ajj aii)) ≤ 1 / 100000000000000 then Val.num (F.piQ / 4)
      else mulV (Val.num (1 / 2)) (atanV F (mulV (mulV (Val.num 2) aij) (invV (subV ajj aii)))))
      = getThetaBigSpec F aii ajj aij
    unfold getThetaBigSpec
    rw [mulV_invV]
  · rw [toN_absV]
    cases a <;> cases b <;> simp [subV, jop, isBig, toN]

/-- `Sij1` (native path): update of the accumulated transform's columns
`i`, `j`; a fold of the sequential per-row writes. -/
def Sij1 (F : TransFns) (Sij : Mat ℚ) (theta : ℚ) (i j : Nat) : Mat ℚ :=
  let N := Sij.length
  let c := F.cosN theta
  let s := F.sinN theta
  let Ski := (List.range N).map fun k => c * ent 0 Sij k i - s * ent 0 Sij k j
  let Skj := (List.range N).map fun k => s * ent 0 Sij k i + c * ent 0 Sij k j
  (List.range N).foldl
    (fun M k => setEnt (setEnt M k i (Ski.getD k 0)) k j (Skj.getD k 0)) Sij

/-- `Sij1Big` (arbitrary-precision path): same update with provider
arithmetic; the transform is initialized with native entries and acquires
arbitrary-precision entries through the updates. -/
def Sij1Big (F : TransFns) (Sij : Mat Val) (theta : Val) (i j : Nat) : Mat Val :=
  let N := Sij.length
  let c := cosV F theta
  let s := sinV F theta
  let Ski := (List.range N).map fun k =>
    subV (mulV c (ent (Val.num 0) Sij k i)) (mulV s (ent (Val.num 0) Sij k j))
  let Skj := (List.range N).map fun k =>
    addV (mulV s (ent (Val.num 0) Sij k i)) (mulV c (ent (Val.num 0) Sij k j))
  (List.range N).foldl
    (fun M k => setEnt (setEnt M k i (Ski.getD k (Val.num 0))) k j (Skj.getD k (Val.num 0))) Sij

/-- The `k ∉ {i, j}` write loop shared by `x1` and `x1Big`: for each such
`k`, writes `Aki[k]` to `(i,k)`/`(k,i)` and `Akj[k]` to `(j,k)`/`(k,j)`. -/
def rotLoop {α : Type} (d : α) (i j : Nat) (Aki Akj : List α) : List Nat → Mat α → Mat α
  | [], M => M
  | k :: ks, M =>
    if k ≠ i ∧ k ≠ j then
      rotLoop d i j Aki Akj ks
        (setEnt (setEnt (setEnt (setEnt M i k (Aki.getD k d)) k i (Aki.getD k d))
          j k (Akj.getD k d)) k j (Akj.getD k d))
    else rotLoop d i j Aki Akj ks M

/-- `x1` (native path): apply one Jacobi rotation at pivot `(i, j)` with
angle `theta` to the working matrix.  All quantities are computed from the
pre-rotation matrix before any write. -/
def x1 (F : TransFns) (Hij : Mat ℚ) (theta : ℚ) (i j : Nat) : Mat ℚ :=
  let N := Hij.length
  let c := F.cosN theta
  let s := F.sinN theta
  let c2 := c * c
  let s2 := s * s
  let Aki := (List.range N).map fun k => c * ent 0 Hij i k - s * ent 0 Hij j k
  let Akj := (List.range N).map fun k => s * ent 0 Hij i k + c * ent 0 Hij j k
  let Aii := c2 * ent 0 Hij i i - 2 * c * s * ent 0 Hij i j + s2 * ent 0 Hij j j
  let Ajj := s2 * ent 0 Hij i i + 2 * c * s * ent 0 Hij i j + c2 * ent 0 Hij j j
  rotLoop 0 i j Aki Akj (List.range N)
    (setEnt (setEnt (setEnt (setEnt Hij i i Aii) j j Ajj) i j 0) j i 0)

/-- `x1Big` (arbitrary-precision path): the same rotation with provider
arithmetic; `c`, `s` are wrapped by `bignumber`, and the pivot cells are
written with the native literal `0`. -/
def x1Big (F : TransFns) (Hij : Mat Val) (theta : Val) (i j : Nat) : Mat Val :=
  let N := Hij.length
  let c := bignumberV (cosV F theta)
  let s := bignumberV (sinV F theta)
  let c2 := mulV c c
  let s2 := mulV s s
  let csHij := mulV (mulV (mulV (Val.num 2) c) s) (ent (Val.num 0) Hij i j)
  let Aii := addV (subV (mulV c2 (ent (Val.num 0) Hij i i)) csHij)
    (mulV s2 (ent (Val.num 0) Hij j j))
  let Ajj := addV (addV (mulV s2 (ent (Val.num 0) Hij i i)) csHij)
    (mulV c2 (ent (Val.num 0) Hij j j))
  let Aki := (List.range N).map fun k =>
    subV (mulV c (ent (Val.num 0) Hij i k)) (mulV s (ent (Val.num 0) Hij j k))
  let Akj := (List.range N).map fun k =>
    addV (mulV s (ent (Val.num 0) Hij i k)) (mulV c (ent (Val.num 0) Hij j k))
  rotLoop (Val.num 0) i j Aki Akj (List.range N)
    (setEnt (setEnt (setEnt (setEnt Hij i i Aii) j j Ajj) i j (Val.num 0)) j i (Val.num 0))

theorem ent_setEnt_ne {α : Type} (d : α) (M : Mat α) (a b p q : Nat) (v : α)
    (h : ¬(p = a ∧ q = b)) : ent d (setEnt M a b v) p q = ent d M p q := by
  unfold ent setEnt
  by_cases hpa : p = a
  · subst hpa
    by_cases ha : p < M.length
    · rw [getD_set_self _ _ _ _ ha]
      exact getD_set_ne _ _ _ _ _ fun hbq => h ⟨rfl, hbq.symm⟩
    · rw [List.set_eq_of_length_le (by omega)]
  · rw [getD_set_ne _ _ _ _ _ fun h' => hpa h'.symm]

/-- Symmetry of the top-left `n × n` block. -/
def Symm {α : Type} (d : α) (M : Mat α) (n : Nat) : Prop :=
  ∀ p q, p < n → q < n → ent d M p q = ent d M q p

theorem symm_write_diag {α : Type} {d : α} {M : Mat α} {n : Nat} (a : Nat) (v : α)
    (hsym : Symm d M n) : Symm d (setEnt M a a v) n := by
  intro p q hp hq
  by_cases hpq : p = a ∧ q = a
  · obtain ⟨rfl, rfl⟩ := hpq; rfl
  · rw [ent_setEnt_ne _ _ _ _ _ _ _ hpq,
      ent_setEnt_ne _ _ _ _ _ _ _ (fun h => hpq ⟨h.2, h.1⟩)]
    exact hsym p q hp hq

theorem ent_write_pair {α : Type} {d : α} {M : Mat α} {n : Nat} (hM : SqMat M n)
    (a b : Nat) (v : α) (ha : a < n) (hb : b < n) (p q : Nat) :
    ent d (setEnt (setEnt M a b v) b a v) p q =
      if p = b ∧ q = a then v else if p = a ∧ q = b then v else ent d M p q := by
  rw [ent_setEnt d (setEnt M a b v) b a p q v
    (by rw [length_setEnt, hM.1]; omega)
    (by rw [rowlen_of_sqMat (sqMat_setEnt hM a b v) hb]; omega)]
  by_cases h1 : p = b ∧ q = a
  · rw [if_pos h1, if_pos h1]
  · rw [if_neg h1, if_neg h1]
    by_cases h2 : p = a ∧ q = b
    · rw [if_pos h2, ent_setEnt d M a b p q v (by rw [hM.1]; omega)
        (by rw [rowlen_of_sqMat hM ha]; omega), if_pos h2]
    · rw [if_neg h2, ent_setEnt_ne _ _ _ _ _ _ _ h2]

theorem symm_write_pair {α : Type} {d : α} {M : Mat α} {n : Nat} (hM : SqMat M n)
    (a b : Nat) (v : α) (ha : a < n) (hb : b < n)
    (hsym : Symm d M n) : Symm d (setEnt (setEnt M a b v) b a v) n := by
  intro p q hp hq
  rw [ent_write_pair hM a b v ha hb p q, ent_write_pair hM a b v ha hb q p]
  split_ifs <;> first | rfl | omega | exact hsym p q hp hq

theorem rotLoop_symm {α : Type} (d : α) (i j : Nat) (Aki Akj : List α) (n : Nat)
    (hi : i < n) (hj : j < n) :
    ∀ (ks : List Nat), (∀ k ∈ ks, k < n) → ∀ (M : Mat α), SqMat M n → Symm d M n →
    Symm d (rotLoop d i j Aki Akj ks M) n := by
  intro ks
  induction ks with
  | nil => intro _ M _ hsym; exact hsym
  | cons k ks ih =>
    intro hks M hM hsym
    have hk' : k < n := hks k (by simp)
    simp only [rotLoop]
    by_cases hk : k ≠ i ∧ k ≠ j
    · rw [if_pos hk]
      refine ih (fun t ht => hks t (by simp [ht])) _ ?_ ?_
      · exact sqMat_setEnt (sqMat_setEnt (sqMat_setEnt (sqMat_setEnt hM _ _ _) _ _ _) _ _ _) _ _ _
      · exact symm_write_pair (sqMat_setEnt (sqMat_setEnt hM _ _ _) _ _ _) j k _ hj hk'
          (symm_write_pair hM i k _ hi hk' hsym)
    · rw [if_neg hk]
      exact ih (fun t ht => hks t (by simp [ht])) M hM hsym

theorem rotLoop_ent_pivot {α : Type} (d : α) (i j : Nat) (Aki Akj : List α) :
    ∀ (ks : List Nat) (M : Mat α) (p q : Nat), (p = i ∨ p = j) → (q = i ∨ q = j) →
    ent d (rotLoop d i j Aki Akj ks M) p q = ent d M p q := by
  intro ks
  induction ks with
  | nil => intro M p q _ _; rfl
  | cons k ks ih =>
    intro M p q hp hq
    simp only [rotLoop]
    by_cases hk : k ≠ i ∧ k ≠ j
    · obtain ⟨hk1, hk2⟩ := hk
      rw [if_pos ⟨hk1, hk2⟩, ih _ p q hp hq,
        ent_setEnt_ne d _ k j p q _ (by omega),
        ent_setEnt_ne d _ j k p q _ (by omega),
        ent_setEnt_ne d _ k i p q _ (by omega),
        ent_setEnt_ne d _ i k p q _ (by omega)]
    · rw [if_neg hk]
      exact ih M p q hp hq

theorem preWrites_ent_pivot {α : Type} {d : α} {M : Mat α} {n : Nat} (hM : SqMat M n)
    {i j : Nat} (hij : i < j) (hj : j < n) (Aii Ajj z : α) :
    ent d (setEnt (setEnt (setEnt (setEnt M i i Aii) j j Ajj) i j z) j i z) i j = z ∧
    ent d (setEnt (setEnt (setEnt (setEnt M i i Aii) j j Ajj) i j z) j i z) j i = z := by
  have hM2 : SqMat (setEnt (setEnt M i i Aii) j j Ajj) n :=
    sqMat_setEnt (sqMat_setEnt hM _ _ _) _ _ _
  constructor
  · rw [ent_setEnt_ne d _ j i i j z (by omega),
      ent_setEnt d _ i j i j z (by rw [hM2.1]; omega)
        (by rw [rowlen_of_sqMat hM2 (by omega)]; omega)]
    simp
  · rw [ent_setEnt d _ j i j i z
      (by rw [length_setEnt, hM2.1]; omega)
      (by rw [rowlen_of_sqMat (sqMat_setEnt hM2 _ _ _) (by omega)]; omega)]
    simp

/-- **C7.** For every symmetric working matrix, pivot `(i, j)` with
`i < j`, and rotation angle, one rotation application (`x1` in the native
path, `x1Big` in the arbitrary-precision path) produces an again symmetric
matrix: symmetry is an invariant of the convergence loop. -/
theorem rotation_preserves_symmetry :
    (∀ (F : TransFns) (H : Mat ℚ) (θ : ℚ) (i j n : Nat), SqMat H n → i < j → j < n →
      Symm 0 H n → Symm 0 (x1 F H θ i j) n) ∧
    (∀ (F : TransFns) (H : Mat Val) (θ : Val) (i j n : Nat), SqMat H n → i < j → j < n →
      Symm (Val.num 0) H n → Symm (Val.num 0) (x1Big F H θ i j) n) := by
  constructor
  · intro F H θ i j n hM hij hj hsym
    simp only [x1]
    refine rotLoop_symm 0 i j _ _ n (by omega) hj (List.range H.length)
      (fun k hk => by rw [List.mem_range, hM.1] at hk; omega) _ ?_ ?_
    · exact sqMat_setEnt (sqMat_setEnt (sqMat_setEnt (sqMat_setEnt hM _ _ _) _ _ _) _ _ _) _ _ _
    · exact symm_write_pair (sqMat_setEnt (sqMat_setEnt hM _ _ _) _ _ _) i j _ (by omega) hj
        (symm_write_diag j _ (symm_write_diag i _ hsym))
  · intro F H θ i j n hM hij hj hsym
    simp only [x1Big]
    refine rotLoop_symm (Val.num 0) i j _ _ n (by omega) hj (List.range H.length)
      (fun k hk => by rw [List.mem_range, hM.1] at hk; omega) _ ?_ ?_
    · exact sqMat_setEnt (sqMat_setEnt (sqMat_setEnt (sqMat_setEnt hM _ _ _) _ _ _) _ _ _) _ _ _
    · exact symm_write_pair (sqMat_setEnt (sqMat_setEnt hM _ _ _) _ _ _) i j _ (by omega) hj
        (symm_write_diag j _ (symm_write_diag i _ hsym))

/-- Witness for C7: a concrete symmetric 2×2 rotation stays symmetric. -/
theorem rotation_preserves_symmetry_witness :
    Symm 0 (x1 trigTest [[1, 2], [2, 5]] 1 0 1) 2 :=
  rotation_preserves_symmetry.1 trigTest [[1, 2], [2, 5]] 1 0 1 2
    (by constructor <;> simp +decide) (by decide) (by decide)
    (by intro p q hp hq; interval_cases p <;> interval_cases q <;> decide)

/-- **C6 (amended).** After a rotation at pivot `(i, j)` with `i < j`, the
entries at `(i, j)` and `(j, i)` equal the native floating literal zero in
*both* paths: `0 : ℚ` in the native path, and the native-tagged
`Val.num 0` — not the arbitrary-precision zero — in the
arbitrary-precision path. -/
theorem rotation_zeroes_pivot_entries :
    (∀ (F : TransFns) (H : Mat ℚ) (θ : ℚ) (i j n : Nat), SqMat H n → i < j → j < n →
      ent 0 (x1 F H θ i j) i j = 0 ∧ ent 0 (x1 F H θ i j) j i = 0) ∧
    (∀ (F : TransFns) (H : Mat Val) (θ : Val) (i j n : Nat), SqMat H n → i < j → j < n →
      ent (Val.num 0) (x1Big F H θ i j) i j = Val.num 0 ∧
      ent (Val.num 0) (x1Big F H θ i j) j i = Val.num 0) := by
  constructor
  · intro F H θ i j n hM hij hj
    simp only [x1]
    rw [rotLoop_ent_pivot 0 i j _ _ _ _ i j (Or.inl rfl) (Or.inr rfl),
      rotLoop_ent_pivot 0 i j _ _ _ _ j i (Or.inr rfl) (Or.inl rfl)]
    exact preWrites_ent_pivot hM hij hj _ _ _
  · intro F H θ i j n hM hij hj
    simp only [x1Big]
    rw [rotLoop_ent_pivot (Val.num 0) i j _ _ _ _ i j (Or.inl rfl) (Or.inr rfl),
      rotLoop_ent_pivot (Val.num 0) i j _ _ _ _ j i (Or.inr rfl) (Or.inl rfl)]
    exact preWrites_ent_pivot hM hij hj _ _ _

/-- Witness for the amended C6 at a concrete pivot. -/
theorem rotation_zeroes_pivot_entries_witness :
    ent (Val.num 0) (x1Big trigTest [[Val.big 1, Val.big 2], [Val.big 2, Val.big 1]]
      (Val.num 0) 0 1) 0 1 = Val.num 0 :=
  (rotation_zeroes_pivot_entries.2 trigTest _ (Val.num 0) 0 1 2
    (by constructor <;> simp +decide) (by decide) (by decide)).1

/-- Counterexample to C6 as stated: in the arbitrary-precision path the
pivot entry after the rotation is the native zero `Val.num 0`, which is
*not* the arbitrary-precision zero `Val.big 0`. -/
theorem big_pivot_zero_is_native_counterexample :
    ent (Val.num 0) (x1Big trigTest [[Val.big 1, Val.big 2], [Val.big 2, Val.big 1]]
        (Val.num 0) 0 1) 0 1 = Val.num 0 ∧
    ent (Val.num 0) (x1Big trigTest [[Val.big 1, Val.big 2], [Val.big 2, Val.big 1]]
        (Val.num 0) 0 1) 0 1 ≠ Val.big 0 := by
  constructor <;> decide

/-- The inner minimum scan of `sorting`: `for j: if E[j] < minE update`. -/
def findMinGo {α : Type} (ltB : α → α → Bool) : List (Nat × α) → Nat × α → Nat × α
  | [], acc => acc
  | (j, e) :: rest, acc => findMinGo ltB rest (if ltB e acc.2 then (j, e) else acc)

/-- Index and value of the first minimum of `E` (start `minID = 0`,
`minE = E[0]`, strict `<` updates). -/
def findMin {α : Type} (ltB : α → α → Bool) (d : α) (E : List α) : Nat × α :=
  findMinGo ltB E.enum (0, E.headD d)

/-- The selection step of `sorting`, recursing on the number of output
positions left: extract the first minimum of the remaining `E`, and for
every row `k` install `S[k][minID]` at the next output column and remove
it from `S[k]`. -/
def sortingGo {α : Type} (ltB : α → α → Bool) (d : α) :
    Nat → List α → List (List α) → List α × List (List α)
  | 0, _, S => ([], S.map fun _ => [])
  | n + 1, E, S =>
    let m := (findMin ltB d E).1
    let r := sortingGo ltB d n (E.eraseIdx m) (S.map fun row => row.eraseIdx m)
    (E.getD m d :: r.1, List.zipWith (fun row frow => row.getD m d :: frow) S r.2)

/-- `sorting`: selection sort of the eigenvalues with matching permutation
of the transform's columns (rows spliced in lockstep). -/
def sorting {α : Type} (ltB : α → α → Bool) (d : α) (E : List α) (S : List (List α)) :
    List α × List (List α) :=
  sortingGo ltB d E.length E S

/-- The JS `<` on native numbers. -/
def ltq : ℚ → ℚ → Bool := fun a b => decide (a < b)

/-- The JS `<` on engine values (coerces to the native numeric content). -/
def ltV : Val → Val → Bool := fun a b => decide (toN a < toN b)

/-- `sorting` as invoked from `diag` (native comparison on numbers). -/
def sortingQ (E : List ℚ) (S : List (List ℚ)) : List ℚ × List (List ℚ) :=
  sorting ltq 0 E S

/-- `sorting` as invoked from `diagBig` (JS comparison coerces the wrapped
values to their native numeric content). -/
def sortingV (E : List Val) (S : List (List Val)) : List Val × List (List Val) :=
  sorting ltV (Val.num 0) E S

/-- The identity matrix `Sij` initialized by `diag`. -/
def idMat (N : Nat) : Mat ℚ :=
  (List.range N).map fun i => (List.range N).map fun k => if k = i then 1 else 0

/-- The identity matrix `Sij` initialized by `diagBig` (native entries). -/
def idMatV (N : Nat) : Mat Val :=
  (List.range N).map fun i => (List.range N).map fun k =>
    if k = i then Val.num 1 else Val.num 0

/-- The diagonal `Ei[i] = x[i][i]`. -/
def diagOf (N : Nat) (x : Mat ℚ) : List ℚ := (List.range N).map fun i => ent 0 x i i

/-- The diagonal in the arbitrary-precision path. -/
def diagOfV (N : Nat) (x : Mat Val) : List Val :=
  (List.range N).map fun i => ent (Val.num 0) x i i

/-- The `while (abs(Vab[1]) >= abs(e0))` loop of `diag`, with explicit
fuel standing in for the (uncapped) iteration count: `none` models
running out of fuel while the loop condition still holds. -/
def jacobiGo (F : TransFns) (e0 : ℚ) : Nat → Mat ℚ → Mat ℚ → Option (Mat ℚ × Mat ℚ)
  | 0, x, S => if |(getAij x).2| ≥ |e0| then none else some (x, S)
  | fuel + 1, x, S =>
    let Vab := getAij x
    if |Vab.2| ≥ |e0| then
      let i := Vab.1.1
      let j := Vab.1.2
      let psi := getTheta F (ent 0 x i i) (ent 0 x j j) (ent 0 x i j)
      jacobiGo F e0 fuel (x1 F x psi i j) (Sij1 F S psi i j)
    else some (x, S)

/-- `diag` with explicit `precision` parameter: tolerance
`e0 = |precision / N|`, transform initialized to the identity, and at
convergence the diagonal is sorted together with the transform. -/
def diagP (F : TransFns) (precision : ℚ) (fuel : Nat) (x : Mat ℚ) :
    Option (List ℚ × List (List ℚ)) :=
  let N := x.length
  let e0 := |precision / (N : ℚ)|
  (jacobiGo F e0 fuel x (idMat N)).map fun p => sortingQ (diagOf N p.1) p.2

/-- `diag` at the default `precision = 1E-12`. -/
def diag (F : TransFns) (fuel : Nat) (x : Mat ℚ) : Option (List ℚ × List (List ℚ)) :=
  diagP F (1 / 1000000000000) fuel x

/-- The convergence loop of `diagBig`; the loop condition coerces
`abs(Vab[1])` to its native numeric content. -/
def jacobiGoB (F : TransFns) (e0 : ℚ) : Nat → Mat Val → Mat Val → Option (Mat Val × Mat Val)
  | 0, x, S => if toN (absV (getAijBig x).2) ≥ |e0| then none else some (x, S)
  | fuel + 1, x, S =>
    let Vab := getAijBig x
    if toN (absV Vab.2) ≥ |e0| then
      let i := Vab.1.1
      let j := Vab.1.2
      let psi := getThetaBig F (ent (Val.num 0) x i i) (ent (Val.num 0) x j j)
        (ent (Val.num 0) x i j)
      jacobiGoB F e0 fuel (x1Big F x psi i j) (Sij1Big F S psi i j)
    else some (x, S)

/-- `diagBig` with explicit `precision` parameter. -/
def diagBigP (F : TransFns) (precision : ℚ) (fuel : Nat) (x : Mat Val) :
    Option (List Val × List (List Val)) :=
  let N := x.length
  let e0 := |precision / (N : ℚ)|
  (jacobiGoB F e0 fuel x (idMatV N)).map fun p => sortingV (diagOfV N p.1) p.2

/-- `diagBig` at the default `precision = 1E-12`. -/
def diagBig (F : TransFns) (fuel : Nat) (x : Mat Val) :
    Option (List Val × List (List Val)) :=
  diagBigP F (1 / 1000000000000) fuel x

theorem jacobiGo_not_cond (F : TransFns) (e0 : ℚ) (fuel : Nat) (x S : Mat ℚ)
    (h : ¬(|(getAij x).2| ≥ |e0|)) : jacobiGo F e0 fuel x S = some (x, S) := by
  cases fuel <;> simp only [jacobiGo] <;> rw [if_neg h]

theorem jacobiGoB_not_cond (F : TransFns) (e0 : ℚ) (fuel : Nat) (x S : Mat Val)
    (h : ¬(toN (absV (getAijBig x).2) ≥ |e0|)) : jacobiGoB F e0 fuel x S = some (x, S) := by
  cases fuel <;> simp only [jacobiGoB] <;> rw [if_neg h]

theorem jacobiGo_exit (F : TransFns) (e0 : ℚ) :
    ∀ (fuel : Nat) (x S x' S' : Mat ℚ), jacobiGo F e0 fuel x S = some (x', S') →
    |(getAij x').2| < |e0| := by
  intro fuel
  induction fuel with
  | zero =>
    intro x S x' S' h
    simp only [jacobiGo] at h
    by_cases hc : |(getAij x).2| ≥ |e0|
    · rw [if_pos hc] at h; exact absurd h (by simp)
    · rw [if_neg hc] at h
      injection h with h2
      injection h2 with hx hS
      subst hx
      exact not_le.mp hc
  | succ n ih =>
    intro x S x' S' h
    simp only [jacobiGo] at h
    by_cases hc : |(getAij x).2| ≥ |e0|
    · rw [if_pos hc] at h; exact ih _ _ _ _ h
    · rw [if_neg hc] at h
      injection h with h2
      injection h2 with hx hS
      subst hx
      exact not_le.mp hc

theorem jacobiGoB_exit (F : TransFns) (e0 : ℚ) :
    ∀ (fuel : Nat) (x S x' S' : Mat Val), jacobiGoB F e0 fuel x S = some (x', S') →
    toN (absV (getAijBig x').2) < |e0| := by
  intro fuel
  induction fuel with
  | zero =>
    intro x S x' S' h
    simp only [jacobiGoB] at h
    by_cases hc : toN (absV (getAijBig x).2) ≥ |e0|
    · rw [if_pos hc] at h; exact absurd h (by simp)
    · rw [if_neg hc] at h
      injection h with h2
      injection h2 with hx hS
      subst hx
      exact not_le.mp hc
  | succ n ih =>
    intro x S x' S' h
    simp only [jacobiGoB] at h
    by_cases hc : toN (absV (getAijBig x).2) ≥ |e0|
    · rw [if_pos hc] at h; exact ih _ _ _ _ h
    · rw [if_neg hc] at h
      injection h with h2
      injection h2 with hx hS
      subst hx
      exact not_le.mp hc

theorem diagP_of_not_cond (F : TransFns) (precision : ℚ) (fuel : Nat) (x : Mat ℚ)
    (h : ¬((getAij x).2 ≥ |precision / (x.length : ℚ)|)) :
    diagP F precision fuel x = some (sortingQ (diagOf x.length x) (idMat x.length)) := by
  simp only [diagP]
  rw [jacobiGo_not_cond F _ fuel x _ (by
    rw [abs_abs, abs_of_nonneg (getAij_nonneg x)]
    exact h)]
  rfl

theorem diagBigP_of_not_cond (F : TransFns) (precision : ℚ) (fuel : Nat) (x : Mat Val)
    (h : ¬(toN (getAijBig x).2 ≥ |precision / (x.length : ℚ)|)) :
    diagBigP F precision fuel x = some (sortingV (diagOfV x.length x) (idMatV x.length)) := by
  have hnn : 0 ≤ toN (getAijBig x).2 := by
    rw [(getAijBig_sim x).2]
    exact getAij_nonneg _
  simp only [diagBigP]
  rw [jacobiGoB_not_cond F _ fuel x _ (by
    rw [abs_abs, toN_absV, abs_of_nonneg hnn]
    exact h)]
  rfl

/-- **C2.** The convergence loop (native `diag` and arbitrary-precision
`diagBig`) rotates again if and only if the tested quantity — the maximal
off-diagonal magnitude returned by the pivot selector — is
`≥ |precision / N|` (`precision` defaulting to 1e-12); when it is below
the threshold the loop exits, and the unsorted eigenvalues are the
diagonal of the working matrix (then sorted with the identity-initialized
transform).  A successful exit always has the magnitude below the
threshold; the fuel parameter only models the absence of an iteration
cap. -/
theorem convergence_loop_condition :
    (∀ (F : TransFns) (e0 : ℚ) (fuel : Nat) (x S : Mat ℚ),
      jacobiGo F e0 (fuel + 1) x S =
        if |(getAij x).2| ≥ |e0| then
          jacobiGo F e0 fuel
            (x1 F x (getTheta F (ent 0 x (getAij x).1.1 (getAij x).1.1)
              (ent 0 x (getAij x).1.2 (getAij x).1.2)
              (ent 0 x (getAij x).1.1 (getAij x).1.2)) (getAij x).1.1 (getAij x).1.2)
            (Sij1 F S (getTheta F (ent 0 x (getAij x).1.1 (getAij x).1.1)
              (ent 0 x (getAij x).1.2 (getAij x).1.2)
              (ent 0 x (getAij x).1.1 (getAij x).1.2)) (getAij x).1.1 (getAij x).1.2)
        else some (x, S)) ∧
    (∀ (precision : ℚ) (x : Mat ℚ),
      (|(getAij x).2| ≥ |(|precision / (x.length : ℚ)|)| ↔
        (getAij x).2 ≥ |precision / (x.length : ℚ)|) ∧
      (∀ p q, p < q → q < x.length → |ent 0 x p q| ≤ (getAij x).2)) ∧
    (∀ (F : TransFns) (e0 : ℚ) (fuel : Nat) (x S x' S' : Mat ℚ),
      jacobiGo F e0 fuel x S = some (x', S') → |(getAij x').2| < |e0|) ∧
    (∀ (F : TransFns) (precision : ℚ) (fuel : Nat) (x : Mat ℚ),
      ¬((getAij x).2 ≥ |precision / (x.length : ℚ)|) →
      diagP F precision fuel x = some (sortingQ (diagOf x.length x) (idMat x.length))) ∧
    (∀ (F : TransFns) (e0 : ℚ) (fuel : Nat) (x S : Mat Val),
      jacobiGoB F e0 (fuel + 1) x S =
        if toN (absV (getAijBig x).2) ≥ |e0| then
          jacobiGoB F e0 fuel
            (x1Big F x (getThetaBig F (ent (Val.num 0) x (getAijBig x).1.1 (getAijBig x).1.1)
              (ent (Val.num 0) x (getAijBig x).1.2 (getAijBig x).1.2)
              (ent (Val.num 0) x (getAijBig x).1.1 (getAijBig x).1.2))
              (getAijBig x).1.1 (getAijBig x).1.2)
            (Sij1Big F S (getThetaBig F (ent (Val.num 0) x (getAijBig x).1.1 (getAijBig x).1.1)
              (ent (Val.num 0) x (getAijBig x).1.2 (getAijBig x).1.2)
              (ent (Val.num 0) x (getAijBig x).1.1 (getAijBig x).1.2))
              (getAijBig x).1.1 (getAijBig x).1.2)
        else some (x, S)) ∧
    (∀ (precision : ℚ) (x : Mat Val),
      (toN (absV (getAijBig x).2) ≥ |(|precision / (x.length : ℚ)|)| ↔
        toN (getAijBig x).2 ≥ |precision / (x.length : ℚ)|) ∧
      (∀ p q, p < q → q < x.length →
        |toN (ent (Val.num 0) x p q)| ≤ toN (getAijBig x).2)) ∧
    (∀ (F : TransFns) (e0 : ℚ) (fuel : Nat) (x S x' S' : Mat Val),
      jacobiGoB F e0 fuel x S = some (x', S') → toN (absV (getAijBig x').2) < |e0|) ∧
    (∀ (F : TransFns) (precision : ℚ) (fuel : Nat) (x : Mat Val),
      ¬(toN (getAijBig x).2 ≥ |precision / (x.length : ℚ)|) →
      diagBigP F precision fuel x = some (sortingV (diagOfV x.length x) (idMatV x.length))) ∧
    (∀ (F : TransFns) (fuel : Nat) (x : Mat ℚ),
      diag F fuel x = diagP F (1 / 1000000000000) fuel x) ∧
    (∀ (F : TransFns) (fuel : Nat) (x : Mat Val),
      diagBig F fuel x = diagBigP F (1 / 1000000000000) fuel x) := by
  refine ⟨fun F e0 fuel x S => rfl, ?_, jacobiGo_exit, diagP_of_not_cond,
    fun F e0 fuel x S => rfl, ?_, jacobiGoB_exit, diagBigP_of_not_cond,
    fun F fuel x => rfl, fun F fuel x => rfl⟩
  · intro precision x
    refine ⟨?_, fun p q hpq hq => getAij_le x hpq hq⟩
    rw [abs_abs, abs_of_nonneg (getAij_nonneg x)]
  · intro precision x
    have hnn : 0 ≤ toN (getAijBig x).2 := by
      rw [(getAijBig_sim x).2]; exact getAij_nonneg _
    refine ⟨?_, fun p q hpq hq => ?_⟩
    · rw [abs_abs, toN_absV, abs_of_nonneg hnn]
    · rw [(getAijBig_sim x).2, ← ent_toN]
      exact getAij_le _ hpq (by rw [List.length_map]; omega)

/-- Witness for C2: on an already-converged concrete input the loop exits
immediately, and the threshold equivalence holds at a concrete magnitude. -/
theorem convergence_loop_condition_witness :
    ¬((getAij [[1, 0], [0, 2]]).2 ≥ |(1 / 1000000000000 : ℚ) / (([[1, 0], [0, 2]] : Mat ℚ).length : ℚ)|) ∧
    diagP trigTest (1 / 1000000000000) 5 [[1, 0], [0, 2]] =
      some (sortingQ (diagOf 2 [[1, 0], [0, 2]]) (idMat 2)) := by
  have h0 : (getAij [[1, 0], [0, 2]]).2 = 0 := by decide
  have hcond : ¬((getAij [[1, 0], [0, 2]]).2 ≥
      |(1 / 1000000000000 : ℚ) / (([[1, 0], [0, 2]] : Mat ℚ).length : ℚ)|) := by
    simp only [ge_iff_le, not_le, h0, abs_pos]
    norm_num
  exact ⟨hcond,
    convergence_loop_condition.2.2.2.1 trigTest (1 / 1000000000000) 5 [[1, 0], [0, 2]] hcond⟩

theorem getAij_len1 (x : Mat ℚ) (h : x.length = 1) : getAij x = ((0, 1), 0) := by
  unfold getAij
  rw [h]
  rfl

/-- **C10.** When the initial maximal off-diagonal magnitude is already
below the tolerance `|precision / N|` — in particular for every 1×1
matrix and every diagonal matrix — the convergence loop body never runs
and the result is exactly the input's diagonal together with the N×N
identity transform, passed through `sorting` (so the default pivot
`(0, 1)` is never used to index the matrix). -/
theorem converged_input_skips_loop :
    (∀ (F : TransFns) (precision : ℚ) (fuel : Nat) (x : Mat ℚ), 1 ≤ x.length →
      |(getAij x).2| < |precision / (x.length : ℚ)| →
      diagP F precision fuel x = some (sortingQ (diagOf x.length x) (idMat x.length))) ∧
    (∀ (F : TransFns) (fuel : Nat) (q : ℚ), diag F fuel [[q]] = some ([q], [[1]])) ∧
    (∀ (F : TransFns) (fuel : Nat) (n : Nat) (x : Mat ℚ), SqMat x n → 1 ≤ n →
      (∀ p q, p < n → q < n → p ≠ q → ent 0 x p q = 0) →
      diag F fuel x = some (sortingQ (diagOf n x) (idMat n))) := by
  have hmain : ∀ (F : TransFns) (precision : ℚ) (fuel : Nat) (x : Mat ℚ),
      |(getAij x).2| < |precision / (x.length : ℚ)| →
      diagP F precision fuel x = some (sortingQ (diagOf x.length x) (idMat x.length)) := by
    intro F precision fuel x hlt
    refine diagP_of_not_cond F precision fuel x ?_
    rw [abs_of_nonneg (getAij_nonneg x)] at hlt
    exact not_le.mpr hlt
  have hdiagmat : ∀ (F : TransFns) (fuel : Nat) (n : Nat) (x : Mat ℚ), SqMat x n → 1 ≤ n →
      (∀ p q, p < n → q < n → p ≠ q → ent 0 x p q = 0) →
      diag F fuel x = some (sortingQ (diagOf n x) (idMat n)) := by
    intro F fuel n x hM hn hoff
    have hz : (getAij x).2 = 0 := by
      rcases Nat.lt_or_ge n 2 with h2 | h2
      · have h1 : n = 1 := by omega
        rw [getAij_len1 x (by rw [hM.1, h1])]
      · obtain ⟨hij, hjn, hval, _⟩ := getAij_spec x (by rw [hM.1]; omega)
        rw [hval, hoff _ _ (by rw [hM.1] at hjn; omega) (by rw [hM.1] at hjn; omega)
          (by omega), abs_zero]
    have hpos : (0 : ℚ) < |(1 / 1000000000000 : ℚ) / (x.length : ℚ)| := by
      rw [abs_pos]
      refine div_ne_zero (by norm_num) ?_
      rw [hM.1]
      exact Nat.cast_ne_zero.mpr (by omega)
    have := hmain F (1 / 1000000000000) fuel x (by rw [hz, abs_zero]; exact hpos)
    rw [diag, this, hM.1]
  refine ⟨fun F p fuel x _ h => hmain F p fuel x h, ?_, hdiagmat⟩
  intro F fuel q
  have := hdiagmat F fuel 1 [[q]] (by constructor <;> simp) (by omega)
    (fun p r hp hr hpr => by omega)
  rw [this]
  congr 1
  show sortingQ [q] [[1]] = ([q], [[1]])
  simp [sortingQ, sorting, sortingGo, findMin, findMinGo, diagOf, idMat, ent,
    List.enum, List.enumFrom, ite_self]

theorem findMinGo_q (ps : List (Nat × ℚ)) :
    ∀ acc : Nat × ℚ,
    (findMinGo ltq ps acc = acc ∨
      (findMinGo ltq ps acc ∈ ps ∧ (findMinGo ltq ps acc).2 < acc.2)) ∧
    (∀ p ∈ ps, (findMinGo ltq ps acc).2 ≤ p.2) ∧
    (findMinGo ltq ps acc).2 ≤ acc.2 ∧
    (List.Pairwise (fun a b : Nat × ℚ => a.1 < b.1) (acc :: ps) →
      ∀ p ∈ ps, p.1 < (findMinGo ltq ps acc).1 → (findMinGo ltq ps acc).2 < p.2) := by
  induction ps with
  | nil =>
    intro acc
    exact ⟨Or.inl rfl, by simp, le_refl _, by simp⟩
  | cons hd rest ih =>
    obtain ⟨j, e⟩ := hd
    intro acc
    simp only [findMinGo]
    by_cases he : e < acc.2
    · rw [if_pos (by simp [ltq, he])]
      obtain ⟨ihm, ihmin, ihacc, ihstab⟩ := ih (j, e)
      refine ⟨?_, ?_, ?_, ?_⟩
      · rcases ihm with h | ⟨hmem, hlt⟩
        · exact Or.inr ⟨by rw [h]; exact List.mem_cons_self _ _, by rw [h]; exact he⟩
        · exact Or.inr ⟨List.mem_cons_of_mem _ hmem, lt_trans hlt he⟩
      · intro p hp
        rcases List.mem_cons.mp hp with rfl | hp'
        · exact ihacc
        · exact ihmin p hp'
      · exact le_of_lt (lt_of_le_of_lt ihacc he)
      · intro hpw p hp hplt
        rcases List.mem_cons.mp hp with rfl | hp'
        · rcases ihm with h | ⟨_, hlt⟩
          · rw [h] at hplt; exact absurd hplt (lt_irrefl _)
          · exact hlt
        · exact ihstab hpw.of_cons p hp' hplt
    · rw [if_neg (by simp [ltq, he])]
      obtain ⟨ihm, ihmin, ihacc, ihstab⟩ := ih acc
      refine ⟨?_, ?_, ?_, ?_⟩
      · rcases ihm with h | ⟨hmem, hlt⟩
        · exact Or.inl h
        · exact Or.inr ⟨List.mem_cons_of_mem _ hmem, hlt⟩
      · intro p hp
        rcases List.mem_cons.mp hp with rfl | hp'
        · exact le_trans ihacc (not_lt.mp he)
        · exact ihmin p hp'
      · exact ihacc
      · intro hpw p hp hplt
        have h1 := List.pairwise_cons.mp hpw
        have hpw' : List.Pairwise (fun a b : Nat × ℚ => a.1 < b.1) (acc :: rest) :=
          List.pairwise_cons.mpr
            ⟨fun b hb => h1.1 b (List.mem_cons_of_mem _ hb), h1.2.of_cons⟩
        rcases List.mem_cons.mp hp with rfl | hp'
        · rcases ihm with h | ⟨_, hlt⟩
          · exfalso
            have hj : acc.1 < j := h1.1 (j, e) (List.mem_cons_self _ _)
            rw [h] at hplt
            have hplt' : j < acc.1 := hplt
            omega
          · exact lt_of_lt_of_le hlt (not_lt.mp he)
        · exact ihstab hpw' p hp' hplt

theorem findMin_spec (e : ℚ) (E' : List ℚ) (m : Nat) (v : ℚ)
    (hfm : findMin ltq 0 (e :: E') = (m, v)) :
    m < (e :: E').length ∧ (e :: E').getD m 0 = v ∧
    (∀ t, t < (e :: E').length → v ≤ (e :: E').getD t 0) ∧
    (∀ t, t < m → v < (e :: E').getD t 0) := by
  have hunfold : findMin ltq 0 (e :: E') = findMinGo ltq (List.enumFrom 1 E') (0, e) := by
    unfold findMin
    rw [List.enum_cons]
    simp only [findMinGo, List.headD]
    rw [ite_self]
  rw [hunfold] at hfm
  obtain ⟨hm, hmin, hacc, hstab⟩ := findMinGo_q (List.enumFrom 1 E') (0, e)
  rw [hfm] at hm hmin hacc hstab
  have hpw : List.Pairwise (fun a b : Nat × ℚ => a.1 < b.1) ((0, e) :: List.enumFrom 1 E') := by
    refine List.pairwise_cons.mpr ⟨fun b hb => ?_, ?_⟩
    · obtain ⟨h1, _, _⟩ := List.mem_enumFrom hb
      exact h1
    · refine List.pairwise_map.mp ?_
      rw [List.enumFrom_map_fst]
      exact List.pairwise_lt_range' _ _
  have hmemEnum : ∀ k, k < E'.length → (1 + k, E'.getD k 0) ∈ List.enumFrom 1 E' := by
    intro k hk
    have hlen : k < (List.enumFrom 1 E').length := by rw [List.enumFrom_length]; omega
    have hg := List.getElem_enumFrom E' 1 k hlen
    rw [List.getD_eq_getElem _ _ hk, ← hg]
    exact List.getElem_mem hlen
  have hmbound : m < (e :: E').length := by
    rcases hm with h | ⟨hmem, _⟩
    · have h1 : m = 0 := congrArg Prod.fst h
      rw [h1]; simp
    · obtain ⟨_, h2, _⟩ := List.mem_enumFrom hmem
      simp only [List.length_cons]
      omega
  refine ⟨hmbound, ?_, ?_, ?_⟩
  · rcases hm with h | ⟨hmem, _⟩
    · have h1 : m = 0 := congrArg Prod.fst h
      have h2 : v = e := congrArg Prod.snd h
      rw [h1, h2]
      rfl
    · obtain ⟨h1, h2, h3⟩ := List.mem_enumFrom hmem
      obtain ⟨k, rfl⟩ : ∃ k, m = k + 1 := ⟨m - 1, by omega⟩
      simp only [Nat.add_sub_cancel] at h3
      rw [List.getD_cons_succ, List.getD_eq_getElem _ _ (by omega : k < E'.length)]
      exact h3.symm
  · intro t ht
    cases t with
    | zero => simpa using hacc
    | succ k =>
      have hk : k < E'.length := by simpa using ht
      have := hmin _ (hmemEnum k hk)
      simpa [List.getD_cons_succ] using this
  · intro t ht
    cases t with
    | zero =>
      rcases hm with h | ⟨_, hlt⟩
      · have h1 : m = 0 := congrArg Prod.fst h
        omega
      · simpa using hlt
    | succ k =>
      have hk : k < E'.length := by simp only [List.length_cons] at hmbound; omega
      have := hstab hpw _ (hmemEnum k hk) (by omega : 1 + k < m)
      simpa [List.getD_cons_succ] using this

theorem getD_eraseIdx {α : Type} (l : List α) (m t : Nat) (hm : m < l.length) (d : α) :
    (l.eraseIdx m).getD t d = if t < m then l.getD t d else l.getD (t + 1) d := by
  have hlen : (l.eraseIdx m).length = l.length - 1 := by
    rw [List.length_eraseIdx, if_pos hm]
  by_cases ht : t < (l.eraseIdx m).length
  · rw [List.getD_eq_getElem _ _ ht, List.getElem_eraseIdx]
    by_cases htm : t < m
    · rw [dif_pos htm, if_pos htm, List.getD_eq_getElem _ _ (by omega)]
    · rw [dif_neg htm, if_neg htm, List.getD_eq_getElem _ _ (by omega)]
  · rw [List.getD_eq_default _ _ (by omega)]
    by_cases htm : t < m
    · omega
    · rw [if_neg htm, List.getD_eq_default _ _ (by omega)]

theorem perm_insert_range (m n : Nat) (hm : m < n + 1) :
    ((m :: (List.range n).map fun t => if t < m then t else t + 1)).Perm
      (List.range (n + 1)) := by
  have hsplit : List.range n = List.range' 0 m ++ List.range' m (n - m) := by
    rw [List.range_eq_range']
    have h := List.range'_append 0 m (n - m) 1
    simp only [Nat.one_mul, Nat.zero_add] at h
    rw [show n - m + m = n from by omega] at h
    exact h.symm
  have hmap : (List.range n).map (fun t => if t < m then t else t + 1) =
      List.range' 0 m ++ List.range' (m + 1) (n - m) := by
    rw [hsplit, List.map_append]
    congr 1
    · have hcongr : (List.range' 0 m).map (fun t => if t < m then t else t + 1) =
          (List.range' 0 m).map id :=
        List.map_congr_left fun t ht => by
          have := (List.mem_range'_1.mp ht).2
          simp only [id]
          exact if_pos (by omega)
      rw [hcongr, List.map_id]
    · have hcongr : (List.range' m (n - m)).map (fun t => if t < m then t else t + 1) =
          (List.range' m (n - m)).map (fun t => 1 + t) :=
        List.map_congr_left fun t ht => by
          have := (List.mem_range'_1.mp ht).1
          rw [if_neg (by omega)]
          omega
      rw [hcongr, List.map_add_range']
      congr 1
      omega
  rw [hmap]
  have h1 : (m :: (List.range' 0 m ++ List.range' (m + 1) (n - m))).Perm
      (List.range' 0 m ++ m :: List.range' (m + 1) (n - m)) := List.perm_middle.symm
  refine h1.trans ?_
  have h2 : m :: List.range' (m + 1) (n - m) = List.range' m (n - m + 1) := by
    rw [List.range'_succ]
  have h3 := List.range'_append 0 m (n - m + 1) 1
  simp only [Nat.one_mul, Nat.zero_add] at h3
  rw [show n - m + 1 + m = n + 1 from by omega] at h3
  rw [h2, List.range_eq_range', ← h3]

theorem forall2_zip_step (σ' : List Nat) (n m : Nat) (hm : m < n + 1)
    (_hσ : ∀ t ∈ σ', t < n) :
    ∀ (S T : List (List ℚ)),
    List.Forall₂ (fun row frow' => frow' = σ'.map fun t => (row.eraseIdx m).getD t 0) S T →
    (∀ r ∈ S, r.length = n + 1) →
    List.Forall₂ (fun row frow => frow =
      (m :: σ'.map fun t => if t < m then t else t + 1).map fun t => row.getD t 0) S
      (List.zipWith (fun row frow => row.getD m 0 :: frow) S T) := by
  intro S T hf
  induction hf with
  | nil => intro _; exact List.Forall₂.nil
  | @cons a b l₁ l₂ hab htail ihh =>
    intro hS
    simp only [List.zipWith_cons_cons]
    refine List.Forall₂.cons ?_ (ihh fun r hr => hS r (List.mem_cons_of_mem _ hr))
    simp only [List.map_cons]
    congr 1
    rw [hab, List.map_map]
    refine List.map_congr_left fun t ht => ?_
    have hma : m < a.length := by rw [hS a (List.mem_cons_self _ _)]; omega
    rw [getD_eraseIdx _ _ _ hma]
    exact (apply_ite (fun z => a.getD z 0) _ _ _).symm

theorem sortingGo_spec : ∀ (n : Nat) (E : List ℚ) (S : List (List ℚ)),
    E.length = n → (∀ r ∈ S, r.length = n) →
    ∃ σ : List Nat,
      σ.Perm (List.range n) ∧
      List.Pairwise (fun s t => E.getD s 0 < E.getD t 0 ∨ (E.getD s 0 = E.getD t 0 ∧ s < t)) σ ∧
      (sortingGo ltq 0 n E S).1 = σ.map (fun t => E.getD t 0) ∧
      List.Forall₂ (fun row frow => frow = σ.map fun t => row.getD t 0) S
        (sortingGo ltq 0 n E S).2 := by
  intro n
  induction n with
  | zero =>
    intro E S hE hS
    refine ⟨[], List.Perm.refl _, List.Pairwise.nil, by simp [sortingGo], ?_⟩
    simp only [sortingGo, List.map_nil]
    exact List.forall₂_map_right_iff.mpr (List.forall₂_same.mpr fun x _ => rfl)
  | succ n ih =>
    intro E S hE hS
    obtain ⟨e, E', rfl⟩ : ∃ e E', E = e :: E' := by
      cases E with
      | nil => simp at hE
      | cons a b => exact ⟨a, b, rfl⟩
    rcases hfm : findMin ltq 0 (e :: E') with ⟨m, v⟩
    have hfm1 : (findMin ltq 0 (e :: E')).1 = m := by rw [hfm]
    obtain ⟨hm_lt, hm_val, hm_min, hm_first⟩ := findMin_spec e E' m v hfm
    have hmn : m < n + 1 := by
      simp only [List.length_cons] at hm_lt
      simp only [List.length_cons] at hE
      omega
    have hE'len : ((e :: E').eraseIdx m).length = n := by
      rw [List.length_eraseIdx, if_pos hm_lt]
      simp only [List.length_cons] at hE ⊢
      omega
    have hrows : ∀ r ∈ S.map (fun row => row.eraseIdx m), r.length = n := by
      intro r hr
      rw [List.mem_map] at hr
      obtain ⟨row, hrow, rfl⟩ := hr
      rw [List.length_eraseIdx, if_pos (by rw [hS row hrow]; omega), hS row hrow]
      omega
    obtain ⟨σ', hperm', hpw', hEf', hRows'⟩ :=
      ih ((e :: E').eraseIdx m) (S.map fun row => row.eraseIdx m) hE'len hrows
    have hσ'mem : ∀ t ∈ σ', t < n := fun t ht => List.mem_range.mp (hperm'.mem_iff.mp ht)
    have htrans : ∀ t, ((e :: E').eraseIdx m).getD t 0 =
        (e :: E').getD (if t < m then t else t + 1) 0 := by
      intro t
      rw [getD_eraseIdx _ _ _ hm_lt]
      exact (apply_ite (fun z => (e :: E').getD z 0) _ _ _).symm
    refine ⟨m :: σ'.map (fun t => if t < m then t else t + 1), ?_, ?_, ?_, ?_⟩
    · exact (List.Perm.cons m (hperm'.map _)).trans (perm_insert_range m n hmn)
    · refine List.pairwise_cons.mpr ⟨?_, ?_⟩
      · intro b hb
        rw [List.mem_map] at hb
        obtain ⟨t, ht, rfl⟩ := hb
        have htn : t < n := hσ'mem t ht
        by_cases htm : t < m
        · rw [if_pos htm]
          left
          rw [hm_val]
          exact hm_first t htm
        · rw [if_neg htm]
          have hv := hm_min (t + 1) (by simp only [List.length_cons] at hE ⊢; omega)
          rcases lt_or_eq_of_le hv with hlt | heq2
          · left; rw [hm_val]; exact hlt
          · right
            refine ⟨by rw [hm_val, ← heq2], by omega⟩
      · refine List.pairwise_map.mpr ?_
        refine hpw'.imp_of_mem ?_
        intro s t hs ht hrel
        have hs_eq := htrans s
        have ht_eq := htrans t
        rcases hrel with hlt | ⟨heq2, hst⟩
        · left
          rw [← hs_eq, ← ht_eq]
          exact hlt
        · right
          refine ⟨by rw [← hs_eq, ← ht_eq]; exact heq2, by split_ifs <;> omega⟩
    · simp only [sortingGo, hfm1, List.map_cons]
      congr 1
      rw [hEf', List.map_map]
      refine List.map_congr_left fun t ht => ?_
      exact htrans t
    · simp only [sortingGo, hfm1]
      have hf2 := List.forall₂_map_left_iff.mp hRows'
      exact forall2_zip_step σ' n m hmn hσ'mem S _ hf2
        (fun r hr => by rw [hS r hr])

/-- **C1.** For every non-empty eigenvalue list `E` and matching N×N
transform `S`, the sorting step returns `E` ascending (`values[k] ≤
values[k+1]`), extracting repeatedly the minimum remaining value with the
earliest-indexed occurrence first on ties (the selecting permutation `σ`
is lexicographic on (value, original index)), and applies the same
position permutation `σ` to the columns of `S`: output column `i` of every
row is the entry that accompanied the `i`-th smallest eigenvalue. -/
theorem sorting_sorts_with_matching_columns :
    ∀ (E : List ℚ) (S : List (List ℚ)), E ≠ [] → S.length = E.length →
    (∀ r ∈ S, r.length = E.length) →
    ∃ σ : List Nat,
      σ.Perm (List.range E.length) ∧
      (sortingQ E S).1 = σ.map (fun t => E.getD t 0) ∧
      List.Forall₂ (fun row frow => frow = σ.map fun t => row.getD t 0) S (sortingQ E S).2 ∧
      List.Pairwise (fun s t => E.getD s 0 < E.getD t 0 ∨ (E.getD s 0 = E.getD t 0 ∧ s < t)) σ ∧
      (sortingQ E S).1.Sorted (· ≤ ·) := by
  intro E S _ _ hrows
  obtain ⟨σ, hperm, hpw, hEf, hF2⟩ := sortingGo_spec E.length E S rfl hrows
  refine ⟨σ, hperm, hEf, hF2, hpw, ?_⟩
  have hq : (sortingQ E S).1 = List.map (fun t => E.getD t 0) σ := hEf
  rw [hq]
  exact List.Pairwise.map _
    (fun s t h => by rcases h with h | ⟨h, _⟩ <;> [exact le_of_lt h; exact le_of_eq h]) hpw

/-- Witness for C1 at a concrete input with a value tie: the earliest
occurrence is extracted first and the columns follow the values. -/
theorem sorting_sorts_with_matching_columns_witness :
    (sortingQ [2, 1, 1] [[10, 20, 30], [40, 50, 60], [70, 80, 90]]).1.Sorted (· ≤ ·) ∧
    sortingQ [2, 1, 1] [[10, 20, 30], [40, 50, 60], [70, 80, 90]] =
      ([1, 1, 2], [[20, 30, 10], [50, 60, 40], [80, 90, 70]]) := by
  obtain ⟨σ, h1, h2, h3, h4, h5⟩ :=
    sorting_sorts_with_matching_columns [2, 1, 1] [[10, 20, 30], [40, 50, 60], [70, 80, 90]]
      (by decide) (by decide) (by decide)
  exact ⟨h5, by decide⟩

/-- Witness for C10 at a concrete diagonal matrix: the loop is skipped and
the result is the (sorted) diagonal with the identity transform. -/
theorem converged_input_skips_loop_witness :
    diag trigTest 7 [[2, 0], [0, 3]] = some (sortingQ (diagOf 2 [[2, 0], [0, 3]]) (idMat 2)) ∧
    sortingQ (diagOf 2 [[2, 0], [0, 3]]) (idMat 2) = ([2, 3], [[1, 0], [0, 1]]) :=
  ⟨converged_input_skips_loop.2.2 trigTest 7 2 [[2, 0], [0, 3]]
      (by constructor <;> simp +decide) (by omega)
      (fun p q hp hq hpq => by interval_cases p <;> interval_cases q <;> simp_all <;> decide),
    by decide⟩

/-- Element type names as classified by the container. -/
inductive DType : Type
  | number
  | bigNumber
  | fraction
  | mixed
  | unsupported
deriving DecidableEq, Repr

/-- The family tag of a single element. -/
def vtype : Val → DType
  | Val.num _ => DType.number
  | Val.big _ => DType.bigNumber
  | Val.frac _ => DType.fraction
  | Val.other => DType.unsupported

/-- Modelled from the spec: the container's element-family classifier
(§4.1, §6) — the common family of all elements, `mixed` when the elements
span more than one family (or there are none). -/
def getDataType (d : List (List Val)) : DType :=
  match (d.flatMap id).map vtype with
  | [] => DType.mixed
  | t :: rest => if rest.all fun s => decide (s = t) then t else DType.mixed

/-- The validator's error surface (spec §7).  The spec's `ShapeError` is
the thrown `RangeError('Matrix must be square (size: ...)')`; the three
`TypeError`s keep their source messages as constructors. -/
inductive Err : Type
  | shape (size : List Nat)
  | mixedType
  | unsupportedType (t : DType)
  | notSymmetric
deriving DecidableEq, Repr

/-- Where `checkAndSubmit` hands the working data on success. -/
inductive Dispatch : Type
  | toDiag (arr : List (List Val))
  | toDiagBig (arr : List (List Val))
deriving DecidableEq, Repr

/-- The `0 ≤ i ≤ j < n` scan order shared by `isSymmetric` and the
Fraction conversion loop. -/
def symPairs (n : Nat) : List (Nat × Nat) :=
  (List.range n).flatMap fun i => (List.range' i (n - i)).map fun j => (i, j)

/-- The element scan of `isSymmetric`: throws at the first mismatch. -/
def isSymmetricGo (x : List (List Val)) : List (Nat × Nat) → Except Err Unit
  | [] => Except.ok ()
  | (i, j) :: rest =>
    if equalV (ent (Val.num 0) x i j) (ent (Val.num 0) x j i) then isSymmetricGo x rest
    else Except.error Err.notSymmetric

/-- `isSymmetric`: verify `equal(x[i][j], x[j][i])` for all
`0 ≤ i ≤ j < n`, failing with the "not symmetric" `TypeError` on the
first mismatch; the embedding is pure, so the input is left unchanged. -/
def isSymmetric (x : List (List Val)) (n : Nat) : Except Err Unit :=
  isSymmetricGo x (symPairs n)

/-- Modelled from the spec: `valueOf` of an element — a rational
(Fraction) value coerces to its native numeric content. -/
def valueOfV : Val → Val
  | Val.frac q => Val.num q
  | v => v

/-- The Fraction conversion loop of `checkAndSubmit`:
`xArr[i][j] = xArr[i][j].valueOf(); xArr[j][i] = xArr[i][j]`. -/
def fracConvertGo (arr : List (List Val)) : List (Nat × Nat) → List (List Val)
  | [] => arr
  | (i, j) :: rest =>
    let a1 := setEnt arr i j (valueOfV (ent (Val.num 0) arr i j))
    let a2 := setEnt a1 j i (ent (Val.num 0) a1 i j)
    fracConvertGo a2 rest

/-- The matrix container at the engine boundary: `size()` plus the
working data.  Modelled from the spec (§6): `toArray()` hands the caller
a fresh mutable copy of the data each call, so mutating one copy never
affects another — in the pure embedding both calls simply yield `data`. -/
structure MatC : Type where
  size : List Nat
  data : List (List Val)

/-- `checkAndSubmit`: classify the element family, reject unsupported and
mixed containers, verify symmetry, then dispatch — numbers to `diag`;
Fractions convert one `toArray()` copy element-wise but pass a second,
fresh `toArray()` (the original, unconverted data) to `diag`; BigNumbers
to `diagBig`. -/
def checkAndSubmit (x : MatC) (n : Nat) : Except Err Dispatch :=
  let t := getDataType x.data
  if t ≠ DType.number ∧ t ≠ DType.bigNumber ∧ t ≠ DType.fraction then
    if t = DType.mixed then Except.error Err.mixedType
    else Except.error (Err.unsupportedType t)
  else
    match isSymmetric x.data n with
    | Except.error e => Except.error e
    | Except.ok _ =>
      if t = DType.number then Except.ok (Dispatch.toDiag x.data)
      else if t = DType.fraction then
        let _xArr := fracConvertGo x.data (symPairs n)
        Except.ok (Dispatch.toDiag x.data)
      else Except.ok (Dispatch.toDiagBig x.data)

/-- The `eigs` entry (Matrix variant): the squareness check on `size()`
precedes all element-type classification, symmetry checking and numeric
work. -/
def eigs (x : MatC) : Except Err Dispatch :=
  if x.size.length ≠ 2 ∨ x.size.getD 0 0 ≠ x.size.getD 1 0 then
    Except.error (Err.shape x.size)
  else checkAndSubmit x (x.size.getD 0 0)

/-- **C5.** For every input container whose size is not a square
two-dimensional shape, `eigs` raises the shape error ("Matrix must be
square") — and since this happens for arbitrary element data, it precedes
any element-type classification, symmetry check, or numeric work. -/
theorem nonsquare_rejected_before_classification :
    ∀ (x : MatC), (x.size.length ≠ 2 ∨ x.size.getD 0 0 ≠ x.size.getD 1 0) →
    eigs x = Except.error (Err.shape x.size) := by
  intro x h
  rw [eigs, if_pos h]

/-- Witness for C5: a 2×3 container whose data is simultaneously mixed
and asymmetric is rejected with the shape error, untouched by the
type/symmetry validators. -/
theorem nonsquare_rejected_witness :
    eigs ⟨[2, 3], [[Val.num 1, Val.big 2, Val.frac 3], [Val.other, Val.num 5, Val.num 6]]⟩
      = Except.error (Err.shape [2, 3]) ∧
    getDataType [[Val.num 1, Val.big 2, Val.frac 3], [Val.other, Val.num 5, Val.num 6]]
      = DType.mixed :=
  ⟨nonsquare_rejected_before_classification _ (by decide), by decide⟩

theorem mem_symPairs {n i j : Nat} : (i, j) ∈ symPairs n ↔ i ≤ j ∧ j < n := by
  simp only [symPairs, List.mem_flatMap, List.mem_map, List.mem_range,
    List.mem_range'_1, Prod.mk.injEq]
  constructor
  · rintro ⟨a, ha, b, hb, rfl, rfl⟩
    omega
  · rintro ⟨h1, h2⟩
    exact ⟨i, by omega, j, by omega, rfl, rfl⟩

theorem isSymmetricGo_ok (x : List (List Val)) :
    ∀ ps : List (Nat × Nat),
    (isSymmetricGo x ps = Except.ok () ↔
      ∀ p ∈ ps, equalV (ent (Val.num 0) x p.1 p.2) (ent (Val.num 0) x p.2 p.1) = true) ∧
    (isSymmetricGo x ps = Except.ok () ∨ isSymmetricGo x ps = Except.error Err.notSymmetric) := by
  intro ps
  induction ps with
  | nil => exact ⟨by simp [isSymmetricGo], Or.inl rfl⟩
  | cons hd rest ih =>
    obtain ⟨i, j⟩ := hd
    simp only [isSymmetricGo]
    by_cases hc : equalV (ent (Val.num 0) x i j) (ent (Val.num 0) x j i) = true
    · rw [if_pos hc]
      refine ⟨?_, ih.2⟩
      rw [ih.1]
      constructor
      · intro hall p hp
        rcases List.mem_cons.mp hp with rfl | hp'
        · exact hc
        · exact hall p hp'
      · intro hall p hp
        exact hall p (List.mem_cons_of_mem _ hp)
    · rw [if_neg hc]
      refine ⟨⟨fun h => absurd h (by simp), fun hall => ?_⟩, Or.inr rfl⟩
      exact absurd (hall (i, j) (List.mem_cons_self _ _)) hc

/-- **C8.** The symmetry validator checks `x[i][j] == x[j][i]` with the
family-appropriate equality for every pair `0 ≤ i ≤ j < N`: it returns
without error exactly when all those pairs compare equal (leaving the
input unchanged — the embedding is pure), and otherwise its outcome is
the "not symmetric" `TypeError`, raised at the first mismatching pair of
the scan. -/
theorem symmetry_validator_spec :
    ∀ (x : List (List Val)) (n : Nat),
      (isSymmetric x n = Except.ok () ↔
        ∀ i j, i ≤ j → j < n → toN (ent (Val.num 0) x i j) = toN (ent (Val.num 0) x j i)) ∧
      (isSymmetric x n = Except.ok () ∨ isSymmetric x n = Except.error Err.notSymmetric) := by
  intro x n
  obtain ⟨h1, h2⟩ := isSymmetricGo_ok x (symPairs n)
  refine ⟨?_, h2⟩
  rw [show isSymmetric x n = isSymmetricGo x (symPairs n) from rfl, h1]
  constructor
  · intro hall i j hij hj
    have := hall (i, j) (mem_symPairs.mpr ⟨hij, hj⟩)
    simpa [equalV] using this
  · intro hall p hp
    obtain ⟨hij, hj⟩ := mem_symPairs.mp hp
    simp only [equalV, decide_eq_true_eq]
    exact hall p.1 p.2 hij hj

/-- **C9.** For a rational (Fraction) container, the element-wise
`valueOf` conversion in `checkAndSubmit` is applied to a local copy that
is then discarded: the decomposition is dispatched on the original,
unconverted data, so the conversion loop has no effect on the data the
decomposition operates on. -/
theorem fraction_conversion_has_no_effect :
    ∀ (x : MatC) (n : Nat), getDataType x.data = DType.fraction →
      isSymmetric x.data n = Except.ok () →
      checkAndSubmit x n = Except.ok (Dispatch.toDiag x.data) := by
  intro x n ht hsym
  simp [checkAndSubmit, ht, hsym]

/-- Witness for C9: on a concrete Fraction matrix the conversion loop
changes the copy (retagging every entry to a native number) while the
dispatched data is the untouched original. -/
theorem fraction_conversion_has_no_effect_witness :
    checkAndSubmit ⟨[2, 2], [[Val.frac 1, Val.frac 2], [Val.frac 2, Val.frac 1]]⟩ 2
      = Except.ok (Dispatch.toDiag [[Val.frac 1, Val.frac 2], [Val.frac 2, Val.frac 1]]) ∧
    fracConvertGo [[Val.frac 1, Val.frac 2], [Val.frac 2, Val.frac 1]] (symPairs 2)
      ≠ [[Val.frac 1, Val.frac 2], [Val.frac 2, Val.frac 1]] :=
  ⟨fraction_conversion_has_no_effect _ 2 (by decide) (by rfl), by decide⟩

end Eigs
